import Mathlib

/-!
Verification of the Planner calendar generator (src/main.py, src/gui.py).

The development embeds the program's data model and operations:
a proleptic-Gregorian date model (Python datetime.date), the task-record
resolution and day-index construction of generate_calendar_html, the
text-escaping and span rendering, the month-grid layout of
calendar.Calendar(firstweekday=SUNDAY).monthdatescalendar, and the color
assignment loop of main/gui (parametric in the string digest, which the
spec declares not load-bearing).
-/

namespace PlannerCal

/-! ## Calendar arithmetic (proleptic Gregorian, years as naturals) -/

def isLeap (y : Nat) : Bool := (y % 4 == 0 && y % 100 != 0) || y % 400 == 0

def monthDays (leap : Bool) (m : Nat) : Nat :=
  match m with
  | 1 => 31
  | 2 => if leap then 29 else 28
  | 3 => 31
  | 4 => 30
  | 5 => 31
  | 6 => 30
  | 7 => 31
  | 8 => 31
  | 9 => 30
  | 10 => 31
  | 11 => 30
  | 12 => 31
  | _ => 0

def monthOfs (leap : Bool) : Nat → Nat
  | 0 => 0
  | m + 1 => monthOfs leap m + monthDays leap m

def daysInYear (y : Nat) : Nat := if isLeap y then 366 else 365

def daysInMonth (y m : Nat) : Nat := monthDays (isLeap y) m

def yearDaysBefore : Nat → Nat
  | 0 => 0
  | y + 1 => yearDaysBefore y + daysInYear y

structure Date where
  year : Nat
  month : Nat
  day : Nat
deriving DecidableEq, Repr

def Date.valid (d : Date) : Prop :=
  1 ≤ d.month ∧ d.month ≤ 12 ∧ 1 ≤ d.day ∧ d.day ≤ daysInMonth d.year d.month

instance (d : Date) : Decidable d.valid := by
  unfold Date.valid; infer_instance

def toOrd (d : Date) : Nat :=
  yearDaysBefore d.year + monthOfs (isLeap d.year) d.month + (d.day - 1)

def jan1 (y : Nat) : Date := ⟨y, 1, 1⟩

def dec31 (y : Nat) : Date := ⟨y, 12, 31⟩

def nextDate (d : Date) : Date :=
  if d.day < daysInMonth d.year d.month then ⟨d.year, d.month, d.day + 1⟩
  else if d.month < 12 then ⟨d.year, d.month + 1, 1⟩
  else ⟨d.year + 1, 1, 1⟩

/-! Bounded facts about month tables, all decidable. -/

lemma monthOfs_thirteen : ∀ b : Bool, monthOfs b 13 = (if b then 366 else 365) := by decide

lemma monthDays_pos : ∀ b : Bool, ∀ m, 1 ≤ m → m ≤ 12 → 1 ≤ monthDays b m := by decide

lemma monthOfs_mono : ∀ b : Bool, ∀ m2, m2 ≤ 13 → ∀ m1, m1 ≤ m2 → monthOfs b m1 ≤ monthOfs b m2 := by
  decide

lemma monthOfs_add_days : ∀ (b : Bool) (m : Nat),
    monthOfs b (m + 1) = monthOfs b m + monthDays b m := fun _ _ => rfl

lemma monthOfs_block_le : ∀ b : Bool, ∀ m, 1 ≤ m → m ≤ 12 →
    monthOfs b m + monthDays b m ≤ (if b then 366 else 365) := by decide

lemma daysInYear_eq (y : Nat) : daysInYear y = if isLeap y then 366 else 365 := rfl

lemma daysInYear_pos (y : Nat) : 365 ≤ daysInYear y := by
  unfold daysInYear; split <;> omega

lemma yearDaysBefore_succ (y : Nat) :
    yearDaysBefore (y + 1) = yearDaysBefore y + daysInYear y := rfl

lemma yearDaysBefore_mono {y1 y2 : Nat} (h : y1 ≤ y2) :
    yearDaysBefore y1 ≤ yearDaysBefore y2 := by
  induction y2 with
  | zero =>
    have : y1 = 0 := by omega
    simp [this]
  | succ n ih =>
    rcases Nat.lt_or_ge y1 (n + 1) with h2 | h2
    · have := ih (by omega)
      have := daysInYear_pos n
      rw [yearDaysBefore_succ]; omega
    · have h3 : y1 = n + 1 := by omega
      rw [h3]

/-- Ordinal bounds: a valid date of year y has ordinal in [yearDaysBefore y, yearDaysBefore (y+1)). -/
lemma toOrd_bounds {d : Date} (h : d.valid) :
    yearDaysBefore d.year ≤ toOrd d ∧ toOrd d < yearDaysBefore (d.year + 1) := by
  obtain ⟨h1, h2, h3, h4⟩ := h
  constructor
  · unfold toOrd; omega
  · unfold toOrd
    rw [yearDaysBefore_succ, daysInYear_eq]
    have hblock := monthOfs_block_le (isLeap d.year) d.month h1 h2
    unfold daysInMonth at h4
    omega

/-- A valid date's year is determined by its ordinal. -/
lemma year_eq_of_ord {d : Date} (h : d.valid) {y : Nat}
    (hlo : yearDaysBefore y ≤ toOrd d) (hhi : toOrd d < yearDaysBefore (y + 1)) :
    d.year = y := by
  by_contra hne
  obtain ⟨hb1, hb2⟩ := toOrd_bounds h
  rcases Nat.lt_or_ge d.year y with hlt | hge
  · have := yearDaysBefore_mono (show d.year + 1 ≤ y by omega)
    omega
  · have : y + 1 ≤ d.year := by omega
    have := yearDaysBefore_mono this
    omega

/-- toOrd is injective on valid dates. -/
lemma toOrd_injective {a b : Date} (ha : a.valid) (hb : b.valid)
    (h : toOrd a = toOrd b) : a = b := by
  obtain ⟨ha1, ha2, ha3, ha4⟩ := ha
  obtain ⟨hb1, hb2, hb3, hb4⟩ := hb
  have hyear : a.year = b.year := by
    have hboundsA := toOrd_bounds ⟨ha1, ha2, ha3, ha4⟩
    have hboundsB := toOrd_bounds ⟨hb1, hb2, hb3, hb4⟩
    exact year_eq_of_ord ⟨ha1, ha2, ha3, ha4⟩ (h ▸ hboundsB.1) (h ▸ hboundsB.2)
  unfold toOrd at h
  rw [hyear] at h
  unfold daysInMonth at ha4 hb4
  rw [hyear] at ha4
  set L := isLeap b.year with hL
  have hmonth : a.month = b.month := by
    by_contra hne
    rcases Nat.lt_or_ge a.month b.month with hlt | hge
    · have e1 : monthOfs L (a.month + 1) = monthOfs L a.month + monthDays L a.month :=
        monthOfs_add_days L a.month
      have e2 : monthOfs L (a.month + 1) ≤ monthOfs L b.month :=
        monthOfs_mono L b.month (by omega) (a.month + 1) (by omega)
      omega
    · have hlt : b.month < a.month := by omega
      have e1 : monthOfs L (b.month + 1) = monthOfs L b.month + monthDays L b.month :=
        monthOfs_add_days L b.month
      have e2 : monthOfs L (b.month + 1) ≤ monthOfs L a.month :=
        monthOfs_mono L a.month (by omega) (b.month + 1) (by omega)
      omega
  have hday : a.day = b.day := by
    rw [hmonth] at h; omega
  cases a; cases b
  simp_all

lemma monthOfs_twelve : ∀ b : Bool, monthOfs b 12 = (if b then 366 else 365) - 31 := by decide

lemma monthOfs_one : ∀ b : Bool, monthOfs b 1 = 0 := by decide

lemma monthDays_twelve : ∀ b : Bool, monthDays b 12 = 31 := by decide

lemma ite_year_ge (y : Nat) : 31 ≤ if isLeap y = true then 366 else 365 := by
  split <;> omega

lemma valid_nextDate {d : Date} (h : d.valid) : (nextDate d).valid := by
  obtain ⟨h1, h2, h3, h4⟩ := h
  unfold nextDate
  split
  · rename_i hday
    exact ⟨h1, h2, by show 1 ≤ d.day + 1; omega,
      by show d.day + 1 ≤ daysInMonth d.year d.month; omega⟩
  · split
    · rename_i hm
      exact ⟨by show 1 ≤ d.month + 1; omega, by show d.month + 1 ≤ 12; omega,
        Nat.le_refl 1, monthDays_pos (isLeap d.year) (d.month + 1) (by omega) (by omega)⟩
    · exact ⟨Nat.le_refl 1, by show (1 : Nat) ≤ 12; omega, Nat.le_refl 1,
        monthDays_pos (isLeap (d.year + 1)) 1 (by omega) (by omega)⟩

lemma toOrd_nextDate {d : Date} (h : d.valid) : toOrd (nextDate d) = toOrd d + 1 := by
  obtain ⟨h1, h2, h3, h4⟩ := h
  unfold nextDate
  split
  · show yearDaysBefore d.year + monthOfs (isLeap d.year) d.month + (d.day + 1 - 1) =
      yearDaysBefore d.year + monthOfs (isLeap d.year) d.month + (d.day - 1) + 1
    omega
  · rename_i hday
    unfold daysInMonth at h4 hday
    have hdayEq : d.day = monthDays (isLeap d.year) d.month := by omega
    split
    · show yearDaysBefore d.year + monthOfs (isLeap d.year) (d.month + 1) + (1 - 1) =
        yearDaysBefore d.year + monthOfs (isLeap d.year) d.month + (d.day - 1) + 1
      rw [monthOfs_add_days]
      omega
    · rename_i hm
      have hm12 : d.month = 12 := by omega
      show yearDaysBefore (d.year + 1) + monthOfs (isLeap (d.year + 1)) 1 + (1 - 1) =
        yearDaysBefore d.year + monthOfs (isLeap d.year) d.month + (d.day - 1) + 1
      rw [hm12] at hdayEq ⊢
      rw [yearDaysBefore_succ, daysInYear_eq, monthOfs_one, monthOfs_twelve,
        monthDays_twelve] at *
      have := ite_year_ge d.year
      omega

lemma valid_jan1 (y : Nat) : (jan1 y).valid :=
  ⟨Nat.le_refl 1, by show (1 : Nat) ≤ 12; omega, Nat.le_refl 1,
    monthDays_pos (isLeap y) 1 (Nat.le_refl 1) (by omega)⟩

lemma valid_dec31 (y : Nat) : (dec31 y).valid := by
  have e3 := monthDays_twelve (isLeap y)
  exact ⟨by show (1 : Nat) ≤ 12; omega, Nat.le_refl 12, by show (1 : Nat) ≤ 31; omega,
    by show (31 : Nat) ≤ monthDays (isLeap y) 12; omega⟩

lemma toOrd_jan1 (y : Nat) : toOrd (jan1 y) = yearDaysBefore y := by
  show yearDaysBefore y + monthOfs (isLeap y) 1 + (1 - 1) = yearDaysBefore y
  rw [monthOfs_one]
  omega

lemma toOrd_dec31 (y : Nat) : toOrd (dec31 y) = yearDaysBefore (y + 1) - 1 := by
  show yearDaysBefore y + monthOfs (isLeap y) 12 + (31 - 1) = yearDaysBefore (y + 1) - 1
  rw [yearDaysBefore_succ, daysInYear_eq, monthOfs_twelve]
  have := ite_year_ge y
  omega

/-- Valid dates in year y have ordinals between jan1 and dec31 of y. -/
lemma toOrd_year_range {d : Date} (h : d.valid) (hy : d.year = y) :
    toOrd (jan1 y) ≤ toOrd d ∧ toOrd d ≤ toOrd (dec31 y) := by
  obtain ⟨hb1, hb2⟩ := toOrd_bounds h
  rw [toOrd_jan1, toOrd_dec31]
  subst hy
  omega

/-! ## Task records and date resolution (generate_calendar_html, lines 38-49)

A task row carries the coerced date cells: a cell that is absent or failed
pd.to_datetime coercion is none (NaT), names and labels are the string
cells, with label/bucket none standing for a NaN cell. -/

structure Task where
  name : String
  startDate : Option Date
  dueDate : Option Date
  completedDate : Option Date
  label : Option String
  bucket : Option String
deriving DecidableEq, Repr

/-- The two in-place column updates: due date overwritten by a present
completed date, then a missing start date filled with the (overridden) due. -/
def resolveTask (t : Task) : Task :=
  let due := match t.completedDate with
    | some c => some c
    | none => t.dueDate
  let start := match t.startDate with
    | none => due
    | some s => some s
  { t with startDate := start, dueDate := due }

/-- The caller's frame after generate_calendar_html returns: the three
column assignments happen in place on the caller's rows. -/
def processedTasks (ts : List Task) : List Task := ts.map resolveTask

/-- Rows surviving dropna(subset=[Start date, Due date]). -/
def keptTasks (ts : List Task) : List Task :=
  (processedTasks ts).filter (fun t => t.startDate.isSome && t.dueDate.isSome)

def optValid : Option Date → Prop
  | none => True
  | some d => d.valid

def datesValid (t : Task) : Prop :=
  optValid t.startDate ∧ optValid t.dueDate ∧ optValid t.completedDate

instance (o : Option Date) : Decidable (optValid o) := by
  cases o <;> unfold optValid <;> infer_instance

instance (t : Task) : Decidable (datesValid t) := by
  unfold datesValid; infer_instance

lemma datesValid_resolveTask {t : Task} (h : datesValid t) : datesValid (resolveTask t) := by
  obtain ⟨h1, h2, h3⟩ := h
  unfold resolveTask
  cases hc : t.completedDate <;> cases hs : t.startDate <;>
    simp_all [datesValid, optValid]

/-! ## The day index (generate_calendar_html, lines 51-72) -/

abbrev DayIndex := List (Date × List String)

def lookupIdx : DayIndex → Date → List String
  | [], _ => []
  | (k, v) :: rest, d => if k = d then v else lookupIdx rest d

def memIdx (idx : DayIndex) (d : Date) (n : String) : Prop := n ∈ lookupIdx idx d

instance (idx : DayIndex) (d : Date) (n : String) : Decidable (memIdx idx d n) := by
  unfold memIdx; infer_instance

/-- tasks_by_day insertion: create the day's list when absent, append the
name when not yet present on that day. -/
def addTask : DayIndex → Date → String → DayIndex
  | [], d, n => [(d, [n])]
  | (k, v) :: rest, d, n =>
    if k = d then (k, if n ∈ v then v else v ++ [n]) :: rest
    else (k, v) :: addTask rest d n

/-- Python max(a, b) on dates keeps a unless b is strictly later. -/
def maxD (a b : Date) : Date := if toOrd a < toOrd b then b else a

/-- Python min(a, b) on dates keeps a unless b is strictly earlier. -/
def minD (a b : Date) : Date := if toOrd b < toOrd a then b else a

lemma toOrd_maxD (a b : Date) : toOrd (maxD a b) = max (toOrd a) (toOrd b) := by
  unfold maxD; split <;> omega

lemma toOrd_minD (a b : Date) : toOrd (minD a b) = min (toOrd a) (toOrd b) := by
  unfold minD; split <;> omega

lemma valid_maxD {a b : Date} (ha : a.valid) (hb : b.valid) : (maxD a b).valid := by
  unfold maxD; split <;> assumption

lemma valid_minD {a b : Date} (ha : a.valid) (hb : b.valid) : (minD a b).valid := by
  unfold minD; split <;> assumption

/-- The while-loop over the clipped range, with exact fuel. -/
def addRangeFuel : Nat → DayIndex → String → Date → Date → DayIndex
  | 0, idx, _, _, _ => idx
  | f + 1, idx, n, cur, e =>
    if toOrd cur ≤ toOrd e then addRangeFuel f (addTask idx cur n) n (nextDate cur) e
    else idx

def addRange (idx : DayIndex) (n : String) (cur e : Date) : DayIndex :=
  addRangeFuel (toOrd e + 1 - toOrd cur) idx n cur e

/-- One loop iteration of the task loop: year fast-reject, clip, expand. -/
def processTask (year : Nat) (idx : DayIndex) (t : Task) : DayIndex :=
  match t.startDate, t.dueDate with
  | some s, some e =>
    if year < s.year || e.year < year then idx
    else addRange idx t.name (maxD s (jan1 year)) (minD e (dec31 year))
  | _, _ => idx

def buildDayIndex (ts : List Task) (year : Nat) : DayIndex :=
  (keptTasks ts).foldl (processTask year) []

/-- Membership in the clipped interval
[max(effectiveStart, Jan 1), min(effectiveEnd, Dec 31)] of the target year. -/
def inClip (year : Nat) (s e d : Date) : Prop :=
  toOrd (maxD s (jan1 year)) ≤ toOrd d ∧ toOrd d ≤ toOrd (minD e (dec31 year))

/-- A resolved task covers date d for the target year. -/
def covers (year : Nat) (t : Task) (d : Date) : Prop :=
  d.valid ∧ ∃ s e, t.startDate = some s ∧ t.dueDate = some e ∧ inClip year s e d

lemma lookup_addTask (idx : DayIndex) (d0 d : Date) (n : String) :
    lookupIdx (addTask idx d0 n) d =
      if d = d0 then
        (if n ∈ lookupIdx idx d0 then lookupIdx idx d0 else lookupIdx idx d0 ++ [n])
      else lookupIdx idx d := by
  induction idx with
  | nil =>
    by_cases hd : d = d0
    · subst hd; simp [addTask, lookupIdx]
    · have hd2 : ¬d0 = d := fun h => hd h.symm
      simp [addTask, lookupIdx, hd, hd2]
  | cons head rest ih =>
    obtain ⟨k, v⟩ := head
    by_cases hk : k = d0
    · subst hk
      by_cases hd : d = k
      · subst hd; simp [addTask, lookupIdx]
      · have hd2 : ¬k = d := fun h => hd h.symm
        simp [addTask, lookupIdx, hd, hd2]
    · by_cases hd : k = d
      · subst hd
        simp [addTask, lookupIdx, hk]
      · simp [addTask, lookupIdx, hk, hd, ih]

lemma mem_addTask {idx : DayIndex} {d0 d : Date} {n0 n : String} :
    memIdx (addTask idx d0 n0) d n ↔ memIdx idx d n ∨ (d = d0 ∧ n = n0) := by
  unfold memIdx
  rw [lookup_addTask]
  by_cases hd : d = d0
  · subst hd
    simp only [if_pos rfl]
    by_cases hn : n0 ∈ lookupIdx idx d
    · rw [if_pos hn]
      constructor
      · exact fun h => Or.inl h
      · rintro (h | ⟨-, rfl⟩) <;> [exact h; exact hn]
    · rw [if_neg hn]
      simp [List.mem_append]
  · simp [hd]

lemma mem_addRangeFuel {f : Nat} {idx : DayIndex} {n0 : String} {cur e : Date}
    (hc : cur.valid) (_he : e.valid) (hf : f = toOrd e + 1 - toOrd cur) (d : Date) (n : String) :
    memIdx (addRangeFuel f idx n0 cur e) d n ↔
      memIdx idx d n ∨ (n = n0 ∧ d.valid ∧ toOrd cur ≤ toOrd d ∧ toOrd d ≤ toOrd e) := by
  induction f generalizing idx cur with
  | zero =>
    simp only [addRangeFuel]
    constructor
    · exact fun h => Or.inl h
    · rintro (h | ⟨-, -, h1, h2⟩)
      · exact h
      · omega
  | succ f ih =>
    have hle : toOrd cur ≤ toOrd e := by omega
    simp only [addRangeFuel, if_pos hle]
    have hnv := valid_nextDate hc
    have hno := toOrd_nextDate hc
    rw [ih hnv (by omega)]
    rw [mem_addTask]
    constructor
    · rintro ((h | ⟨rfl, rfl⟩) | ⟨rfl, hv, h1, h2⟩)
      · exact Or.inl h
      · exact Or.inr ⟨rfl, hc, Nat.le_refl _, hle⟩
      · exact Or.inr ⟨rfl, hv, by omega, h2⟩
    · rintro (h | ⟨rfl, hv, h1, h2⟩)
      · exact Or.inl (Or.inl h)
      · rcases Nat.eq_or_lt_of_le h1 with heq | hlt
        · have : d = cur := toOrd_injective hv hc heq.symm
          exact Or.inl (Or.inr ⟨this, rfl⟩)
        · exact Or.inr ⟨rfl, hv, by omega, h2⟩

/-- The year fast-reject only skips tasks whose clipped interval is empty. -/
lemma clip_empty_of_reject {year : Nat} {s e : Date} (hs : s.valid) (he : e.valid)
    (hrej : year < s.year ∨ e.year < year) (d : Date) : ¬ inClip year s e d := by
  rintro ⟨h1, h2⟩
  rw [toOrd_maxD] at h1
  rw [toOrd_minD] at h2
  rw [toOrd_jan1] at h1
  rw [toOrd_dec31] at h2
  obtain ⟨hbs1, hbs2⟩ := toOrd_bounds hs
  obtain ⟨hbe1, hbe2⟩ := toOrd_bounds he
  have h365 := daysInYear_pos year
  have hsucc := yearDaysBefore_succ year
  rcases hrej with hy | hy
  · have : yearDaysBefore (year + 1) ≤ yearDaysBefore s.year := yearDaysBefore_mono (by omega)
    omega
  · have : yearDaysBefore (e.year + 1) ≤ yearDaysBefore year := yearDaysBefore_mono (by omega)
    omega

lemma mem_processTask {year : Nat} {t : Task} {idx : DayIndex} (hv : datesValid t)
    (d : Date) (n : String) :
    memIdx (processTask year idx t) d n ↔
      memIdx idx d n ∨ (t.name = n ∧ covers year t d) := by
  obtain ⟨hv1, hv2, -⟩ := hv
  unfold processTask
  cases hs : t.startDate with
  | none =>
    simp only [covers, inClip]
    constructor
    · exact fun h => Or.inl h
    · rintro (h | ⟨-, -, s, e, hse, -⟩)
      · exact h
      · rw [hs] at hse; cases hse
  | some s =>
    cases hev : t.dueDate with
    | none =>
      simp only [covers, inClip]
      constructor
      · exact fun h => Or.inl h
      · rintro (h | ⟨-, -, s2, e2, -, he2, -⟩)
        · exact h
        · rw [hev] at he2; cases he2
    | some e =>
      rw [hs] at hv1
      rw [hev] at hv2
      by_cases hrej : year < s.year ∨ e.year < year
      · have hrejb : (year < s.year || e.year < year) = true := by
          rcases hrej with h | h <;> simp [h]
        simp only [hrejb, if_pos rfl, if_true]
        constructor
        · exact fun h => Or.inl h
        · rintro (h | ⟨-, -, s2, e2, hs2, he2, hcl⟩)
          · exact h
          · rw [hs] at hs2
            rw [hev] at he2
            cases hs2; cases he2
            exact absurd hcl (clip_empty_of_reject hv1 hv2 hrej d)
      · have hrejb : (year < s.year || e.year < year) = false := by
          push_neg at hrej
          simp [hrej.1, hrej.2, Nat.not_lt.mpr hrej.1, Nat.not_lt.mpr hrej.2]
        simp only [hrejb, Bool.false_eq_true, if_false]
        unfold addRange
        rw [mem_addRangeFuel (valid_maxD hv1 (valid_jan1 year))
          (valid_minD hv2 (valid_dec31 year)) rfl d n]
        constructor
        · rintro (h | ⟨rfl, hvd, h1, h2⟩)
          · exact Or.inl h
          · exact Or.inr ⟨rfl, hvd, s, e, hs, hev, h1, h2⟩
        · rintro (h | ⟨rfl, hvd, s2, e2, hs2, he2, h1, h2⟩)
          · exact Or.inl h
          · rw [hs] at hs2
            rw [hev] at he2
            cases hs2; cases he2
            exact Or.inr ⟨rfl, hvd, h1, h2⟩

lemma mem_foldl_processTask (year : Nat) (l : List Task) (idx : DayIndex)
    (hv : ∀ t ∈ l, datesValid t) (d : Date) (n : String) :
    memIdx (l.foldl (processTask year) idx) d n ↔
      memIdx idx d n ∨ ∃ t ∈ l, t.name = n ∧ covers year t d := by
  induction l generalizing idx with
  | nil => simp
  | cons t rest ih =>
    simp only [List.foldl_cons]
    rw [ih (processTask year idx t) (fun u hu => hv u (List.mem_cons_of_mem t hu))]
    rw [mem_processTask (hv t (List.mem_cons_self t rest)) d n]
    constructor
    · rintro ((h | ⟨hn, hcov⟩) | ⟨u, hu, hn, hcov⟩)
      · exact Or.inl h
      · exact Or.inr ⟨t, List.mem_cons_self t rest, hn, hcov⟩
      · exact Or.inr ⟨u, List.mem_cons_of_mem t hu, hn, hcov⟩
    · rintro (h | ⟨u, hu, hn, hcov⟩)
      · exact Or.inl (Or.inl h)
      · rcases List.mem_cons.mp hu with rfl | hu2
        · exact Or.inl (Or.inr ⟨hn, hcov⟩)
        · exact Or.inr ⟨u, hu2, hn, hcov⟩

lemma keptTasks_datesValid {ts : List Task} (hv : ∀ t ∈ ts, datesValid t) :
    ∀ t ∈ keptTasks ts, datesValid t := by
  intro t ht
  unfold keptTasks processedTasks at ht
  obtain ⟨u, hu, rfl⟩ := List.mem_map.mp (List.mem_of_mem_filter ht)
  exact datesValid_resolveTask (hv u hu)

/-- Characterization of day-index membership: a name is recorded on date d
exactly when some surviving resolved task with that name covers d after
clipping to the target year. -/
lemma mem_buildDayIndex {ts : List Task} {year : Nat} (hv : ∀ t ∈ ts, datesValid t)
    (d : Date) (n : String) :
    memIdx (buildDayIndex ts year) d n ↔
      ∃ t ∈ keptTasks ts, t.name = n ∧ covers year t d := by
  unfold buildDayIndex
  rw [mem_foldl_processTask year (keptTasks ts) [] (keptTasks_datesValid hv) d n]
  simp [memIdx, lookupIdx]

def keysOf (idx : DayIndex) : List Date := idx.map Prod.fst

lemma addTask_fresh {idx : DayIndex} {d0 : Date} {n : String} (h : d0 ∉ keysOf idx) :
    (addTask idx d0 n).length = idx.length + 1 ∧
      keysOf (addTask idx d0 n) = keysOf idx ++ [d0] := by
  induction idx with
  | nil => simp [addTask, keysOf]
  | cons head rest ih =>
    obtain ⟨k, v⟩ := head
    have hk : ¬k = d0 := by
      intro hkk
      exact h (by simp [keysOf, hkk])
    have h2 : d0 ∉ keysOf rest := by
      intro hh
      exact h (by simp [keysOf] at hh ⊢; exact Or.inr hh)
    obtain ⟨l1, l2⟩ := ih h2
    constructor
    · simp only [addTask, if_neg hk, List.length_cons, l1]
    · simp only [addTask, if_neg hk, keysOf, List.map_cons] at l2 ⊢
      simp [l2]

lemma addRangeFuel_len {f : Nat} {idx : DayIndex} {n : String} {cur e : Date}
    (hc : cur.valid) (hf : f = toOrd e + 1 - toOrd cur)
    (hkeys : ∀ k ∈ keysOf idx, toOrd k < toOrd cur) :
    (addRangeFuel f idx n cur e).length = idx.length + f := by
  induction f generalizing idx cur with
  | zero => simp [addRangeFuel]
  | succ f ih =>
    have hle : toOrd cur ≤ toOrd e := by omega
    simp only [addRangeFuel, if_pos hle]
    have hfresh : cur ∉ keysOf idx := fun hmem => absurd (hkeys cur hmem) (by omega)
    obtain ⟨l1, l2⟩ := addTask_fresh (n := n) hfresh
    have hno := toOrd_nextDate hc
    have hkeys2 : ∀ k ∈ keysOf (addTask idx cur n), toOrd k < toOrd (nextDate cur) := by
      intro k hk
      rw [l2] at hk
      rcases List.mem_append.mp hk with hmem | hmem
      · have := hkeys k hmem; omega
      · simp at hmem; subst hmem; omega
    rw [ih (valid_nextDate hc) (by omega) hkeys2, l1]
    omega

/-- Completed-date override: a present completed date becomes the effective due date. -/
lemma resolveTask_due_of_completed {t : Task} {c : Date} (h : t.completedDate = some c) :
    (resolveTask t).dueDate = some c := by
  simp [resolveTask, h]

/-- Start fallback: an absent start date becomes the already-overridden due date. -/
lemma resolveTask_start_of_missing {t : Task} (h : t.startDate = none) :
    (resolveTask t).startDate = (resolveTask t).dueDate := by
  simp [resolveTask, h]

/-- The rows surviving resolution are exactly those with a completed or a due
date, and a row survives the dropna iff that held before resolution. -/
lemma keptTasks_eq_filterMap (ts : List Task) :
    keptTasks ts =
      (ts.filter (fun t => t.completedDate.isSome || t.dueDate.isSome)).map resolveTask := by
  unfold keptTasks processedTasks
  induction ts with
  | nil => rfl
  | cons t rest ih =>
    have hcond : ((resolveTask t).startDate.isSome && (resolveTask t).dueDate.isSome) =
        (t.completedDate.isSome || t.dueDate.isSome) := by
      unfold resolveTask
      cases hc : t.completedDate <;> cases hs : t.startDate <;> cases hd : t.dueDate <;>
        simp [hc, hs, hd]
    cases hb : (t.completedDate.isSome || t.dueDate.isSome) with
    | true => simp [List.filter_cons, hcond, hb, ih]
    | false => simp [List.filter_cons, hcond, hb, ih]

/-- A pre-resolved single task fully inside the target year produces one index
entry per day of its inclusive range. -/
lemma buildDayIndex_singleton_len {t : Task} {year : Nat} {s e : Date}
    (hs : t.startDate = some s) (he : t.dueDate = some e) (hcd : t.completedDate = none)
    (hvs : s.valid) (hve : e.valid)
    (h1 : toOrd (jan1 year) ≤ toOrd s) (h2 : toOrd s ≤ toOrd e)
    (h3 : toOrd e ≤ toOrd (dec31 year)) :
    (buildDayIndex [t] year).length = toOrd e - toOrd s + 1 := by
  have hres : resolveTask t = t := by
    obtain ⟨nm, st, du, cd, lb, bk⟩ := t
    dsimp only at hs he hcd
    subst hs; subst hcd
    rfl
  have hkept : keptTasks [t] = [t] := by
    unfold keptTasks processedTasks
    simp [hres, hs, he]
  have hj := toOrd_jan1 year
  have hd31 := toOrd_dec31 year
  have h365 := daysInYear_pos year
  have hsucc := yearDaysBefore_succ year
  have hsy : s.year = year :=
    year_eq_of_ord hvs (by omega) (by omega)
  have hey : e.year = year :=
    year_eq_of_ord hve (by omega) (by omega)
  have hrejb : (year < s.year || e.year < year) = false := by
    simp [hsy, hey]
  have hmaxeq : maxD s (jan1 year) = s := by
    unfold maxD
    rw [if_neg (by omega)]
  have hmineq : minD e (dec31 year) = e := by
    unfold minD
    rw [if_neg (by omega)]
  unfold buildDayIndex
  rw [hkept]
  simp only [List.foldl_cons, List.foldl_nil]
  unfold processTask
  rw [hs, he]
  simp only [hrejb, Bool.false_eq_true, if_false]
  unfold addRange
  rw [hmaxeq, hmineq]
  rw [addRangeFuel_len hvs rfl (by intro k hk; simp [keysOf] at hk)]
  simp only [List.length_nil]
  omega

/-! ## Task text escaping (generate_calendar_html, lines 196-203)

The chain of str.replace calls: semicolons removed first, then the five
markup characters entity-escaped, innermost application first. -/

def replaceChar (c : Char) (t : List Char) : List Char → List Char
  | [] => []
  | a :: as => if a = c then t ++ replaceChar c t as else a :: replaceChar c t as

def quoteChar : Char := Char.ofNat 34

def apChar : Char := Char.ofNat 39

def escapeChars (l : List Char) : List Char :=
  replaceChar apChar ['&', '#', '3', '9', ';']
    (replaceChar quoteChar ['&', 'q', 'u', 'o', 't', ';']
      (replaceChar '>' ['&', 'g', 't', ';']
        (replaceChar '<' ['&', 'l', 't', ';']
          (replaceChar '&' ['&', 'a', 'm', 'p', ';']
            (replaceChar ';' [] l)))))

def escapeTaskText (s : String) : String := String.mk (escapeChars s.data)

/-- Single-pass character encoding equivalent to the replace chain. -/
def encChar (a : Char) : List Char :=
  if a = ';' then []
  else if a = '&' then ['&', 'a', 'm', 'p', ';']
  else if a = '<' then ['&', 'l', 't', ';']
  else if a = '>' then ['&', 'g', 't', ';']
  else if a = quoteChar then ['&', 'q', 'u', 'o', 't', ';']
  else if a = apChar then ['&', '#', '3', '9', ';']
  else [a]

lemma replaceChar_append (c : Char) (t x y : List Char) :
    replaceChar c t (x ++ y) = replaceChar c t x ++ replaceChar c t y := by
  induction x with
  | nil => simp [replaceChar]
  | cons a as ih =>
    by_cases h : a = c <;> simp [replaceChar, h, ih]

lemma escapeChars_append (x y : List Char) :
    escapeChars (x ++ y) = escapeChars x ++ escapeChars y := by
  unfold escapeChars
  rw [replaceChar_append, replaceChar_append, replaceChar_append, replaceChar_append,
    replaceChar_append, replaceChar_append]

lemma replaceChar_single_ne {a c : Char} (t : List Char) (h : ¬a = c) :
    replaceChar c t [a] = [a] := by
  simp [replaceChar, h]

lemma escapeChars_singleton (a : Char) : escapeChars [a] = encChar a := by
  by_cases h1 : a = ';'
  · subst h1; rfl
  by_cases h2 : a = '&'
  · subst h2; rfl
  by_cases h3 : a = '<'
  · subst h3; rfl
  by_cases h4 : a = '>'
  · subst h4; rfl
  by_cases h5 : a = quoteChar
  · subst h5; rfl
  by_cases h6 : a = apChar
  · subst h6; rfl
  unfold escapeChars encChar
  rw [replaceChar_single_ne _ h1, replaceChar_single_ne _ h2, replaceChar_single_ne _ h3,
    replaceChar_single_ne _ h4, replaceChar_single_ne _ h5, replaceChar_single_ne _ h6]
  simp [h1, h2, h3, h4, h5, h6]

lemma escapeChars_cons (a : Char) (as : List Char) :
    escapeChars (a :: as) = encChar a ++ escapeChars as := by
  rw [show (a :: as) = [a] ++ as from rfl, escapeChars_append, escapeChars_singleton]

lemma encChar_no_markup (a : Char) : '<' ∉ encChar a ∧ '>' ∉ encChar a := by
  unfold encChar
  split_ifs with h1 h2 h3 h4 h5 h6 <;>
    first
      | constructor <;> decide
      | (constructor <;> intro hmem <;> simp at hmem <;> exact absurd hmem.symm (by assumption))

lemma escapeChars_no_markup (l : List Char) :
    '<' ∉ escapeChars l ∧ '>' ∉ escapeChars l := by
  induction l with
  | nil => constructor <;> intro h <;> simp [escapeChars, replaceChar] at h
  | cons a as ih =>
    rw [escapeChars_cons]
    have h := encChar_no_markup a
    constructor <;> intro hmem <;> rcases List.mem_append.mp hmem with hh | hh
    · exact h.1 hh
    · exact ih.1 hh
    · exact h.2 hh
    · exact ih.2 hh

def isPfxOf : List Char → List Char → Bool
  | [], _ => true
  | _ :: _, [] => false
  | a :: as, b :: bs => a == b && isPfxOf as bs

def entTails : List (List Char) :=
  [['a', 'm', 'p', ';'], ['l', 't', ';'], ['g', 't', ';'],
   ['q', 'u', 'o', 't', ';'], ['#', '3', '9', ';']]

/-- Every ampersand in the list opens one of the five emitted entities. -/
def ampOk : List Char → Bool
  | [] => true
  | a :: as => (if a = '&' then entTails.any (fun t => isPfxOf t as) else true) && ampOk as

lemma ampOk_encChar_append (a : Char) (rest : List Char) :
    ampOk (encChar a ++ rest) = ampOk rest := by
  by_cases h1 : a = ';'
  · subst h1; rfl
  by_cases h2 : a = '&'
  · subst h2
    show ampOk ('&' :: 'a' :: 'm' :: 'p' :: ';' :: rest) = ampOk rest
    simp [ampOk, entTails, isPfxOf]
  by_cases h3 : a = '<'
  · subst h3
    show ampOk ('&' :: 'l' :: 't' :: ';' :: rest) = ampOk rest
    simp [ampOk, entTails, isPfxOf]
  by_cases h4 : a = '>'
  · subst h4
    show ampOk ('&' :: 'g' :: 't' :: ';' :: rest) = ampOk rest
    simp [ampOk, entTails, isPfxOf]
  by_cases h5 : a = quoteChar
  · subst h5
    show ampOk ('&' :: 'q' :: 'u' :: 'o' :: 't' :: ';' :: rest) = ampOk rest
    simp [ampOk, entTails, isPfxOf]
  by_cases h6 : a = apChar
  · subst h6
    show ampOk ('&' :: '#' :: '3' :: '9' :: ';' :: rest) = ampOk rest
    simp [ampOk, entTails, isPfxOf]
  have hen : encChar a = [a] := by simp [encChar, h1, h2, h3, h4, h5, h6]
  rw [hen]
  show ampOk (a :: rest) = ampOk rest
  simp [ampOk, h2]

lemma ampOk_escapeChars (l : List Char) : ampOk (escapeChars l) = true := by
  induction l with
  | nil => rfl
  | cons a as ih => rw [escapeChars_cons, ampOk_encChar_append, ih]

/-! ## Displayed task text and task spans (generate_calendar_html, lines 184-207) -/

/-- Python string interpolation of a possibly-NaN label cell. -/
def labelStr : Option String → String
  | none => "nan"
  | some s => s

/-- Python truthiness of a possibly-NaN label cell: NaN is truthy, the
empty string is falsy. -/
def labelTruthy : Option String → Bool
  | none => true
  | some s => s ≠ ""

/-- The labels series lookup and prefixing of lines 189-194: the first
matching row's label value unless the series is empty or all-NaN. -/
def displayName (kept : List Task) (pfLabel : Bool) (n : String) : String :=
  if pfLabel then
    let ls := (kept.filter (fun t => t.name = n)).map (fun t => t.label)
    let lv : Option String :=
      match ls with
      | [] => some ""
      | v :: vs => if (v :: vs).all (fun x => x.isNone) then some "" else v
    if labelTruthy lv then labelStr lv ++ n else n
  else n

/-- task_colors.get(task_name, "#f0f0f0"). -/
def bgColorFor (colors : List (String × String)) (n : String) : String :=
  match colors.find? (fun p => p.1 == n) with
  | some p => p.2
  | none => "#f0f0f0"

def dq : String := String.mk [quoteChar]

def taskSpan (esc bg : String) : String :=
  "        <span class=" ++ dq ++ "task" ++ dq ++ " title=" ++ dq ++ esc ++ dq ++
    " style=" ++ dq ++ "background-color: " ++ bg ++ ";" ++ dq ++ ">" ++ esc ++ "</span>"

def renderTaskSpan (colors : List (String × String)) (kept : List Task)
    (pfLabel : Bool) (n : String) : String :=
  taskSpan (escapeTaskText (displayName kept pfLabel n)) (bgColorFor colors n)

def dayCellTaskSpans (idx : DayIndex) (colors : List (String × String))
    (kept : List Task) (pfLabel : Bool) (d : Date) : List String :=
  (lookupIdx idx d).map (renderTaskSpan colors kept pfLabel)

/-! ## Month grid layout (calendar.Calendar(firstweekday=SUNDAY)) -/

/-- datetime.date.weekday: Monday = 0. -/
def weekday (d : Date) : Nat := (toOrd d + 5) % 7

def prevDate (d : Date) : Date :=
  if 1 < d.day then ⟨d.year, d.month, d.day - 1⟩
  else if 1 < d.month then ⟨d.year, d.month - 1, daysInMonth d.year (d.month - 1)⟩
  else ⟨d.year - 1, 12, 31⟩

def backDays : Date → Nat → Date
  | d, 0 => d
  | d, k + 1 => backDays (prevDate d) k

def dateList : Date → Nat → List Date
  | _, 0 => []
  | d, k + 1 => d :: dateList (nextDate d) k

/-- The dates yielded by monthdatescalendar(y, m) with firstweekday = SUNDAY,
flattened: leading days back to the preceding Sunday, the month's days, and
trailing days completing the final week. -/
def monthGridDates (y m : Nat) : List Date :=
  let first : Date := ⟨y, m, 1⟩
  let leading := (weekday first + 7 - 6) % 7
  let ndays := daysInMonth y m
  let trailing := (7 - (leading + ndays) % 7) % 7
  dateList (backDays first leading) (leading + ndays + trailing)

/-- Python day_date.month != month_num, where month_num may be None:
an int compares unequal to None. -/
def pyNeqOpt (a : Nat) : Option Nat → Bool
  | none => true
  | some m => a != m

/-- The css class of a day cell (lines 173-177). -/
def dayClass (d : Date) (monthNum : Option Nat) : String :=
  if pyNeqOpt d.month monthNum then "day other-month" else "day"

/-! ## Color assignment (main, lines 327-381; gui, lines 376-429)

The digest is a parameter: the spec pins only that hues come from a
deterministic wide-integer hash of the string, not a specific algorithm. -/

def dedupAux : List String → List String → List String
  | [], _ => []
  | a :: as, seen => if a ∈ seen then dedupAux as seen else a :: dedupAux as (a :: seen)

def dedupStr (l : List String) : List String := dedupAux l []

def insertStr (a : String) : List String → List String
  | [] => [a]
  | b :: bs => if a ≤ b then a :: b :: bs else b :: insertStr a bs

def sortStrs : List String → List String
  | [] => []
  | a :: as => insertStr a (sortStrs as)

/-- sorted(tasks_df[Task Name].astype(str).unique()). -/
def uniqueSorted (l : List String) : List String := sortStrs (dedupStr l)

structure ColorCfg where
  byLabel : Bool
  byBucket : Bool
  alternate : Bool
  lightness : ℚ
  saturation : ℚ

/-- matching_rows label lookup: none when no row matches, some none when the
first matching row's label cell is NaN. -/
def firstLabel (ts : List Task) (n : String) : Option (Option String) :=
  match ts.filter (fun t => t.name = n) with
  | [] => none
  | t :: _ => some t.label

def firstBucket (ts : List Task) (n : String) : Option (Option String) :=
  match ts.filter (fun t => t.name = n) with
  | [] => none
  | t :: _ => some t.bucket

def HUE_STEP : Nat := 29

/-- The hue (numerator over 360) computed by the color loop for the task at
0-based sorted index i: label branch, then bucket branch overwriting it,
then the task-name fallback when no branch fired. -/
def hue360 (hash : String → Nat) (cfg : ColorCfg) (ts : List Task) (i : Nat) (n : String) : Nat :=
  let h1 : Option Nat :=
    if cfg.byLabel then
      match firstLabel ts n with
      | some (some l) => some (if cfg.alternate then HUE_STEP * i % 360 else hash l % 360)
      | _ => none
    else none
  let h2 : Option Nat :=
    if cfg.byBucket then
      match firstBucket ts n with
      | some (some b) => some (if cfg.alternate then HUE_STEP * i % 360 else hash b % 360)
      | _ => h1
    else h1
  match h2 with
  | some h => h
  | none => hash n % 360

def hueList (hash : String → Nat) (cfg : ColorCfg) (ts : List Task) : List (String × Nat) :=
  (uniqueSorted (ts.map (fun t => t.name))).enum.map
    (fun p => (p.2, hue360 hash cfg ts p.1 p.2))

/-! colorsys.hls_to_rgb over exact rationals. -/

def hlsV (m1 m2 : ℚ) (h : ℚ) : ℚ :=
  let hue := Int.fract h
  if hue < 1/6 then m1 + (m2 - m1) * hue * 6
  else if hue < 1/2 then m2
  else if hue < 2/3 then m1 + (m2 - m1) * (2/3 - hue) * 6
  else m1

def hlsToRgb (h l s : ℚ) : ℚ × ℚ × ℚ :=
  if s = 0 then (l, l, l)
  else
    let m2 := if l ≤ 1/2 then l * (1 + s) else l + s - l * s
    let m1 := 2 * l - m2
    (hlsV m1 m2 (h + 1/3), hlsV m1 m2 h, hlsV m1 m2 (h - 1/3))

/-- Python int(): truncation toward zero. -/
def pyInt (q : ℚ) : Int := if 0 ≤ q then Int.floor q else -(Int.floor (-q))

def hexDigit (n : Nat) : Char := if n < 10 then Char.ofNat (48 + n) else Char.ofNat (87 + n)

/-- Two lowercase hex digits, the 02x format of a channel byte. -/
def hex2 (n : Nat) : String := String.mk [hexDigit (n / 16 % 16), hexDigit (n % 16)]

/-- The serialized color: each channel int(component * 255), formatted 02x. -/
def hlsHexColor (h l s : ℚ) : String :=
  let rgb := hlsToRgb h l s
  "#" ++ hex2 (pyInt (rgb.1 * 255)).toNat ++ hex2 (pyInt (rgb.2.1 * 255)).toNat ++
    hex2 (pyInt (rgb.2.2 * 255)).toNat

def assignColors (hash : String → Nat) (cfg : ColorCfg) (ts : List Task) :
    List (String × String) :=
  (hueList hash cfg ts).map
    (fun p => (p.1, hlsHexColor ((p.2 : ℚ) / 360) cfg.lightness cfg.saturation))

/-- Modelled from the spec: the serialization the spec describes, each
channel round(component * 255) clamped to [0, 255]. -/
def specHexColor (h l s : ℚ) : String :=
  let rgb := hlsToRgb h l s
  let ch : ℚ → Nat := fun c => (min 255 (max 0 (round (c * 255)))).toNat
  "#" ++ hex2 (ch rgb.1) ++ hex2 (ch rgb.2.1) ++ hex2 (ch rgb.2.2)

lemma mem_dedupAux (l : List String) :
    ∀ seen n, n ∈ dedupAux l seen ↔ n ∈ l ∧ n ∉ seen := by
  induction l with
  | nil => intro seen n; simp [dedupAux]
  | cons a as ih =>
    intro seen n
    by_cases ha : a ∈ seen
    · rw [dedupAux, if_pos ha, ih]
      constructor
      · rintro ⟨h1, h2⟩
        exact ⟨List.mem_cons_of_mem a h1, h2⟩
      · rintro ⟨h1, h2⟩
        rcases List.mem_cons.mp h1 with rfl | h1
        · exact absurd ha h2
        · exact ⟨h1, h2⟩
    · rw [dedupAux, if_neg ha]
      constructor
      · intro hmem
        rcases List.mem_cons.mp hmem with rfl | hmem
        · exact ⟨List.mem_cons_self n as, ha⟩
        · rw [ih] at hmem
          refine ⟨List.mem_cons_of_mem a hmem.1, fun hs => hmem.2 (List.mem_cons_of_mem a hs)⟩
      · rintro ⟨h1, h2⟩
        rcases List.mem_cons.mp h1 with rfl | h1
        · exact List.mem_cons_self n _
        · by_cases hna : n = a
          · subst hna; exact List.mem_cons_self n _
          · refine List.mem_cons_of_mem a ((ih (a :: seen) n).mpr ⟨h1, ?_⟩)
            intro hs
            rcases List.mem_cons.mp hs with h | h
            · exact hna h
            · exact h2 h

lemma nodup_dedupAux (l : List String) : ∀ seen, (dedupAux l seen).Nodup := by
  induction l with
  | nil => intro seen; simp [dedupAux]
  | cons a as ih =>
    intro seen
    by_cases ha : a ∈ seen
    · rw [dedupAux, if_pos ha]; exact ih seen
    · rw [dedupAux, if_neg ha]
      refine List.Nodup.cons ?_ (ih (a :: seen))
      intro hmem
      exact ((mem_dedupAux as (a :: seen) a).mp hmem).2 (List.mem_cons_self a seen)

lemma mem_insertStr (a n : String) (l : List String) :
    n ∈ insertStr a l ↔ n = a ∨ n ∈ l := by
  induction l with
  | nil => simp [insertStr]
  | cons b bs ih =>
    by_cases hab : a ≤ b
    · simp only [insertStr, if_pos hab, List.mem_cons]
    · simp only [insertStr, if_neg hab, List.mem_cons, ih]
      tauto

lemma nodup_insertStr {a : String} {l : List String} (ha : a ∉ l) (hl : l.Nodup) :
    (insertStr a l).Nodup := by
  induction l with
  | nil => simp [insertStr]
  | cons b bs ih =>
    by_cases hab : a ≤ b
    · rw [insertStr, if_pos hab]
      exact List.Nodup.cons (by simpa using ha) hl
    · rw [insertStr, if_neg hab]
      have hb : b ∉ insertStr a bs := by
        rw [mem_insertStr]
        rintro (rfl | hmem)
        · exact ha (List.mem_cons_self b bs)
        · exact (List.nodup_cons.mp hl).1 hmem
      refine List.Nodup.cons hb (ih (fun h => ha (List.mem_cons_of_mem b h))
        (List.nodup_cons.mp hl).2)

lemma mem_sortStrs (n : String) (l : List String) : n ∈ sortStrs l ↔ n ∈ l := by
  induction l with
  | nil => simp [sortStrs]
  | cons a as ih => simp [sortStrs, mem_insertStr, ih]

lemma nodup_sortStrs {l : List String} (h : l.Nodup) : (sortStrs l).Nodup := by
  induction l with
  | nil => simp [sortStrs]
  | cons a as ih =>
    rw [sortStrs]
    obtain ⟨ha, has⟩ := List.nodup_cons.mp h
    exact nodup_insertStr (fun hm => ha ((mem_sortStrs a as).mp hm)) (ih has)

lemma mem_uniqueSorted (n : String) (l : List String) : n ∈ uniqueSorted l ↔ n ∈ l := by
  unfold uniqueSorted dedupStr
  rw [mem_sortStrs, mem_dedupAux]
  simp

lemma nodup_uniqueSorted (l : List String) : (uniqueSorted l).Nodup :=
  nodup_sortStrs (nodup_dedupAux l [])

lemma enumFrom_map_snd {α : Type} (l : List α) : ∀ k, ((l.enumFrom k).map Prod.snd) = l := by
  induction l with
  | nil => intro k; rfl
  | cons a as ih => intro k; simp [List.enumFrom_cons, ih]

lemma keys_hueList (hash : String → Nat) (cfg : ColorCfg) (ts : List Task) :
    (hueList hash cfg ts).map Prod.fst = uniqueSorted (ts.map (fun t => t.name)) := by
  unfold hueList
  rw [List.map_map]
  have hc : (Prod.fst ∘ fun p : Nat × String => (p.2, hue360 hash cfg ts p.1 p.2)) =
      (Prod.snd : Nat × String → String) := rfl
  rw [hc]
  exact enumFrom_map_snd _ 0

lemma keys_assignColors (hash : String → Nat) (cfg : ColorCfg) (ts : List Task) :
    (assignColors hash cfg ts).map Prod.fst = uniqueSorted (ts.map (fun t => t.name)) := by
  unfold assignColors
  rw [List.map_map]
  have hc : (Prod.fst ∘ fun p : String × Nat =>
      (p.1, hlsHexColor ((p.2 : ℚ) / 360) cfg.lightness cfg.saturation)) =
      (Prod.fst : String × Nat → String) := rfl
  rw [hc]
  exact keys_hueList hash cfg ts

lemma hueList_entry (hash : String → Nat) (cfg : ColorCfg) (ts : List Task) {i : Nat}
    {n : String} (h : (uniqueSorted (ts.map (fun t => t.name)))[i]? = some n) :
    (n, hue360 hash cfg ts i n) ∈ hueList hash cfg ts := by
  unfold hueList
  have hmem : (i, n) ∈ (uniqueSorted (ts.map (fun t => t.name))).enum :=
    List.mk_mem_enum_iff_getElem?.mpr h
  exact List.mem_map.mpr ⟨(i, n), hmem, rfl⟩

lemma eq_snd_of_nodup_keys {α β : Type} {l : List (α × β)} (h : (l.map Prod.fst).Nodup)
    {a : α} {x y : β} (h1 : (a, x) ∈ l) (h2 : (a, y) ∈ l) : x = y := by
  induction l with
  | nil => cases h1
  | cons p rest ih =>
    rw [List.map_cons, List.nodup_cons] at h
    rcases List.mem_cons.mp h1 with he1 | hm1
    · rcases List.mem_cons.mp h2 with he2 | hm2
      · rw [← he1] at he2
        exact (congrArg Prod.snd he2).symm
      · exfalso
        apply h.1
        rw [← he1]
        exact List.mem_map.mpr ⟨(a, y), hm2, rfl⟩
    · rcases List.mem_cons.mp h2 with he2 | hm2
      · exfalso
        apply h.1
        rw [← he2]
        exact List.mem_map.mpr ⟨(a, x), hm1, rfl⟩
      · exact ih h.2 hm1 hm2

lemma hueList_entry_unique (hash : String → Nat) (cfg : ColorCfg) (ts : List Task)
    {n : String} {h1 h2 : Nat} (e1 : (n, h1) ∈ hueList hash cfg ts)
    (e2 : (n, h2) ∈ hueList hash cfg ts) : h1 = h2 := by
  have hnd : ((hueList hash cfg ts).map Prod.fst).Nodup := by
    rw [keys_hueList]
    exact nodup_uniqueSorted _
  exact eq_snd_of_nodup_keys hnd e1 e2

lemma resolveTask_name (t : Task) : (resolveTask t).name = t.name := rfl

/-- Every name recorded in the day index is a name of some input row. -/
lemma memIdx_name_mem {ts : List Task} {year : Nat} (hv : ∀ t ∈ ts, datesValid t)
    {d : Date} {n : String} (h : memIdx (buildDayIndex ts year) d n) :
    n ∈ ts.map (fun t => t.name) := by
  obtain ⟨t, ht, rfl, -⟩ := (mem_buildDayIndex hv d n).mp h
  unfold keptTasks processedTasks at ht
  obtain ⟨u, hu, rfl⟩ := List.mem_map.mp (List.mem_of_mem_filter ht)
  exact List.mem_map.mpr ⟨u, hu, rfl⟩

/-- Modelled from the spec: prepend the first non-empty label found for the
task name among the records, else show the bare name. -/
def specDisplayName (kept : List Task) (pfLabel : Bool) (n : String) : String :=
  if pfLabel then
    match ((kept.filter (fun t => t.name = n)).filterMap
        (fun t => t.label)).filter (fun s => s ≠ "") with
    | [] => n
    | l :: _ => l ++ n
  else n

/-! ## Claim theorems -/

/-- C1: buildDayIndex records a task name on date d exactly when some surviving
resolved record with that name has d inside its clipped range
[max(effectiveStart, Jan 1 of Y), min(effectiveEnd, Dec 31 of Y)] (an empty
clipped interval contributes nothing), and a single pre-resolved record fully
inside the target year yields exactly (effectiveEnd - effectiveStart).days + 1
index entries, so a one-day range yields exactly one occurrence. -/
theorem C1_dayindex_clipping :
    (∀ (ts : List Task) (year : Nat), (∀ t ∈ ts, datesValid t) → ∀ (d : Date) (n : String),
      memIdx (buildDayIndex ts year) d n ↔
        ∃ t ∈ keptTasks ts, t.name = n ∧ covers year t d) ∧
    (∀ (t : Task) (year : Nat) (s e : Date),
      t.startDate = some s → t.dueDate = some e → t.completedDate = none →
      s.valid → e.valid →
      toOrd (jan1 year) ≤ toOrd s → toOrd s ≤ toOrd e → toOrd e ≤ toOrd (dec31 year) →
      (buildDayIndex [t] year).length = (toOrd e - toOrd s) + 1) :=
  ⟨fun _ _ hv d n => mem_buildDayIndex hv d n,
   fun _ _ _ _ hs he hc hvs hve h1 h2 h3 =>
     buildDayIndex_singleton_len hs he hc hvs hve h1 h2 h3⟩

/-- C1 witness: a three-day task Jan 10-12 of year 2 covers Jan 11 and
produces exactly three index entries. -/
theorem C1_witness :
    memIdx (buildDayIndex [⟨"T", some ⟨2, 1, 10⟩, some ⟨2, 1, 12⟩, none, none, none⟩] 2)
      ⟨2, 1, 11⟩ "T" ∧
    (buildDayIndex [⟨"T", some ⟨2, 1, 10⟩, some ⟨2, 1, 12⟩, none, none, none⟩] 2).length =
      (toOrd ⟨2, 1, 12⟩ - toOrd ⟨2, 1, 10⟩) + 1 := by
  constructor
  · exact (C1_dayindex_clipping.1 _ 2 (by decide) _ "T").mpr
      ⟨⟨"T", some ⟨2, 1, 10⟩, some ⟨2, 1, 12⟩, none, none, none⟩, by decide, rfl,
        by decide, ⟨2, 1, 10⟩, ⟨2, 1, 12⟩, rfl, rfl, by decide, by decide⟩
  · exact C1_dayindex_clipping.2 _ 2 ⟨2, 1, 10⟩ ⟨2, 1, 12⟩ rfl rfl rfl (by decide) (by decide)
      (by decide) (by decide) (by decide)

/-- C2: resolution order - a present completed date becomes the effective due
date; an absent start date becomes the (already overridden) due date; the rows
surviving the dropna are exactly those with a completed or a due date, mapped
through resolution - so records left without dates are silently excluded and
the construction is total. -/
theorem C2_resolution_order :
    (∀ (t : Task) (c : Date), t.completedDate = some c → (resolveTask t).dueDate = some c) ∧
    (∀ t : Task, t.startDate = none → (resolveTask t).startDate = (resolveTask t).dueDate) ∧
    (∀ ts : List Task, keptTasks ts =
      (ts.filter (fun t => t.completedDate.isSome || t.dueDate.isSome)).map resolveTask) :=
  ⟨fun _ _ h => resolveTask_due_of_completed h,
   fun _ h => resolveTask_start_of_missing h,
   keptTasks_eq_filterMap⟩

/-- C2 witness: a completed task's due date becomes the completion date, its
missing start inherits it, and a record with only a start date is dropped. -/
theorem C2_witness :
    (resolveTask ⟨"T", none, some ⟨2, 1, 5⟩, some ⟨2, 1, 7⟩, none, none⟩).dueDate =
      some ⟨2, 1, 7⟩ ∧
    (resolveTask ⟨"T", none, some ⟨2, 1, 5⟩, some ⟨2, 1, 7⟩, none, none⟩).startDate =
      (resolveTask ⟨"T", none, some ⟨2, 1, 5⟩, some ⟨2, 1, 7⟩, none, none⟩).dueDate ∧
    keptTasks [⟨"U", some ⟨2, 1, 1⟩, none, none, none, none⟩] = [] :=
  ⟨C2_resolution_order.1 _ ⟨2, 1, 7⟩ rfl,
   C2_resolution_order.2.1 _ rfl,
   (C2_resolution_order.2.2 [⟨"U", some ⟨2, 1, 1⟩, none, none, none, none⟩]).trans (by decide)⟩

/-- C3: evaluation at the failing input: in the full-year view (month_num is
None) the cell for Jan 15 of year 2 belongs to the rendered month January,
yet the code marks it other-month, because day_date.month != month_num always
holds against None; the same cell in the single-month view is unmarked. -/
theorem C3_other_month_bug :
    (⟨2, 1, 15⟩ : Date) ∈ monthGridDates 2 1 ∧ (⟨2, 1, 15⟩ : Date).month = 1 ∧
      dayClass ⟨2, 1, 15⟩ none = "day other-month" ∧
      dayClass ⟨2, 1, 15⟩ (some 1) = "day" :=
  ⟨by decide, rfl, rfl, rfl⟩

/-- C4: escaping strips semicolons first and then entity-escapes the five
markup characters, so entity semicolons survive; the example renders as
claimed, and escaped text never contains a raw less-than or greater-than and
every ampersand opens one of the five entities. -/
theorem C4_escaping :
    escapeTaskText "A & B <C>" = "A &amp; B &lt;C&gt;" ∧
    escapeTaskText ";&" = "&amp;" ∧
    (∀ l : List Char, '<' ∉ escapeChars l ∧ '>' ∉ escapeChars l ∧
      ampOk (escapeChars l) = true) ∧
    (∀ (colors : List (String × String)) (kept : List Task) (pfLabel : Bool) (n : String),
      renderTaskSpan colors kept pfLabel n =
        taskSpan (escapeTaskText (displayName kept pfLabel n)) (bgColorFor colors n)) :=
  ⟨by decide, by decide,
   fun l => ⟨(escapeChars_no_markup l).1, (escapeChars_no_markup l).2, ampOk_escapeChars l⟩,
   fun _ _ _ _ => rfl⟩

/-- C5 counterexample: with byLabel and alternate set and a label that is
present but empty, the loop takes the label branch (pd.notna holds for an
empty string) and assigns the alternate hue 29 * 0 mod 360 = 0; the claim's
fallback clause instead requires the task-name hash hue, which is 1 here for
the digest fun s => s.length. -/
theorem C5_counterexample :
    hue360 (fun s => s.length) ⟨true, false, true, 0, 0⟩
      [⟨"A", none, none, none, some "", none⟩] 0 "A" = 0 ∧
    (fun s : String => s.length) "A" % 360 = 1 ∧
    ("A", 0) ∈ hueList (fun s => s.length) ⟨true, false, true, 0, 0⟩
      [⟨"A", none, none, none, some "", none⟩] :=
  ⟨by decide, by decide, by decide⟩

/-- C5 (amended): with byLabel set (byBucket unset), a task whose first
matching row has a present label - empty or not - receives the label-branch
hue (29 i mod 360 under alternate, else hash of the label mod 360); the
task-name-hash fallback applies exactly when the label is absent (no matching
row or NaN cell), and alternate never applies to it; without grouping every
task gets the task-name hash hue; the hue list carries exactly this hue for
the task at its sorted index. -/
theorem C5_hue_rules :
    ∀ (hash : String → Nat) (cfg : ColorCfg) (ts : List Task) (i : Nat) (n : String),
      cfg.byBucket = false →
      (uniqueSorted (ts.map (fun t => t.name)))[i]? = some n →
      ((n, hue360 hash cfg ts i n) ∈ hueList hash cfg ts ∧
        (∀ hu, (n, hu) ∈ hueList hash cfg ts → hu = hue360 hash cfg ts i n)) ∧
      (cfg.byLabel = true → ∀ l, firstLabel ts n = some (some l) →
        hue360 hash cfg ts i n =
          if cfg.alternate then HUE_STEP * i % 360 else hash l % 360) ∧
      (cfg.byLabel = true → (firstLabel ts n = none ∨ firstLabel ts n = some none) →
        hue360 hash cfg ts i n = hash n % 360) ∧
      (cfg.byLabel = false → hue360 hash cfg ts i n = hash n % 360) := by
  intro hash cfg ts i n hb hidx
  refine ⟨⟨hueList_entry hash cfg ts hidx,
    fun hu hmem => hueList_entry_unique hash cfg ts hmem (hueList_entry hash cfg ts hidx)⟩,
    ?_, ?_, ?_⟩
  · intro hbl l hfl
    simp [hue360, hb, hbl, hfl]
  · intro hbl hfl
    rcases hfl with hfl | hfl <;> simp [hue360, hb, hbl, hfl]
  · intro hbl
    simp [hue360, hb, hbl]

/-- C5 witness: with byLabel set and no alternate, a labeled task gets the
label hash hue and an unlabeled one the name hash hue. -/
theorem C5_witness :
    hue360 (fun s => s.length) ⟨true, false, false, 0, 0⟩
      [⟨"AB", none, none, none, some "LBL", none⟩] 0 "AB" = 3 ∧
    hue360 (fun s => s.length) ⟨true, false, false, 0, 0⟩
      [⟨"AB", none, none, none, none, none⟩] 0 "AB" = 2 := by
  constructor
  · have h := (C5_hue_rules (fun s => s.length) ⟨true, false, false, 0, 0⟩
      [⟨"AB", none, none, none, some "LBL", none⟩] 0 "AB" rfl (by decide)).2.1 rfl "LBL"
      (by decide)
    rw [h]
    decide
  · have h := (C5_hue_rules (fun s => s.length) ⟨true, false, false, 0, 0⟩
      [⟨"AB", none, none, none, none, none⟩] 0 "AB" rfl (by decide)).2.2.1 rfl
      (Or.inr (by decide))
    rw [h]
    decide

lemma hlsV_mem {m1 m2 : ℚ} (h1a : 0 ≤ m1) (h1b : m1 ≤ 1) (h2a : 0 ≤ m2) (h2b : m2 ≤ 1)
    (h : ℚ) : 0 ≤ hlsV m1 m2 h ∧ hlsV m1 m2 h ≤ 1 := by
  unfold hlsV
  have hf0 : 0 ≤ Int.fract h := Int.fract_nonneg h
  have hf1 : Int.fract h < 1 := Int.fract_lt_one h
  set x := Int.fract h with hx
  dsimp only
  split_ifs with c1 c2 c3
  · have hx6 : 0 ≤ 6 * x := by linarith
    have hx6b : 0 ≤ 1 - 6 * x := by linarith
    constructor
    · nlinarith [mul_nonneg h1a hx6b, mul_nonneg h2a hx6]
    · nlinarith [mul_nonneg (by linarith : (0:ℚ) ≤ 1 - m1) hx6b,
        mul_nonneg (by linarith : (0:ℚ) ≤ 1 - m2) hx6]
  · exact ⟨h2a, h2b⟩
  · push_neg at c1 c2
    have ht : 0 ≤ 6 * (2/3 - x) := by linarith
    have htb : 0 ≤ 1 - 6 * (2/3 - x) := by linarith
    constructor
    · nlinarith [mul_nonneg h1a htb, mul_nonneg h2a ht]
    · nlinarith [mul_nonneg (by linarith : (0:ℚ) ≤ 1 - m1) htb,
        mul_nonneg (by linarith : (0:ℚ) ≤ 1 - m2) ht]
  · exact ⟨h1a, h1b⟩

lemma hlsToRgb_mem {h l s : ℚ} (hl0 : 0 ≤ l) (hl1 : l ≤ 1) (hs0 : 0 ≤ s) (hs1 : s ≤ 1) :
    (0 ≤ (hlsToRgb h l s).1 ∧ (hlsToRgb h l s).1 ≤ 1) ∧
      (0 ≤ (hlsToRgb h l s).2.1 ∧ (hlsToRgb h l s).2.1 ≤ 1) ∧
      (0 ≤ (hlsToRgb h l s).2.2 ∧ (hlsToRgb h l s).2.2 ≤ 1) := by
  unfold hlsToRgb
  dsimp only
  split_ifs with hc hl2
  · exact ⟨⟨hl0, hl1⟩, ⟨hl0, hl1⟩, ⟨hl0, hl1⟩⟩
  · have b3 : 0 ≤ l * (1 + s) := by nlinarith
    have b4 : l * (1 + s) ≤ 1 := by nlinarith
    have b1 : 0 ≤ 2 * l - l * (1 + s) := by nlinarith
    have b2 : 2 * l - l * (1 + s) ≤ 1 := by nlinarith
    exact ⟨hlsV_mem b1 b2 b3 b4 _, hlsV_mem b1 b2 b3 b4 _, hlsV_mem b1 b2 b3 b4 _⟩
  · push_neg at hl2
    have hA := mul_nonneg (by linarith : (0:ℚ) ≤ 1 - l) (by linarith : (0:ℚ) ≤ 1 - s)
    have hB := mul_nonneg (by linarith : (0:ℚ) ≤ 1 + s) (by linarith : (0:ℚ) ≤ 1 - l)
    have hC := mul_nonneg hl0 (by linarith : (0:ℚ) ≤ 1 - s)
    have b3 : 0 ≤ l + s - l * s := by nlinarith
    have b4 : l + s - l * s ≤ 1 := by nlinarith
    have b1 : 0 ≤ 2 * l - (l + s - l * s) := by nlinarith
    have b2 : 2 * l - (l + s - l * s) ≤ 1 := by nlinarith
    exact ⟨hlsV_mem b1 b2 b3 b4 _, hlsV_mem b1 b2 b3 b4 _, hlsV_mem b1 b2 b3 b4 _⟩

/-- For components in [0, 1] the int() truncation is a floor and the channel
byte already lies in [0, 255]: no clamping can fire. -/
lemma pyInt_channel {c : ℚ} (h0 : 0 ≤ c) (h1 : c ≤ 1) :
    pyInt (c * 255) = Int.floor (c * 255) ∧ 0 ≤ Int.floor (c * 255) ∧
      Int.floor (c * 255) ≤ 255 := by
  have hnn : (0 : ℚ) ≤ c * 255 := by nlinarith
  refine ⟨by unfold pyInt; rw [if_pos hnn], Int.floor_nonneg.mpr hnn, ?_⟩
  have hle : c * 255 ≤ ((255 : ℤ) : ℚ) := by push_cast; nlinarith
  have := Int.floor_le_floor hle
  rwa [Int.floor_intCast] at this

lemma hlsToRgb_case : hlsToRgb 0 (17/20) (7/10) = (191/200, 149/200, 149/200) := by
  norm_num [hlsToRgb, hlsV, Int.fract]

lemma hlsHexColor_case : hlsHexColor 0 (17/20) (7/10) = "#f3bdbd" := by
  unfold hlsHexColor
  rw [hlsToRgb_case]
  have c1 : pyInt ((191:ℚ)/200 * 255) = 243 := by norm_num [pyInt]
  have c2 : pyInt ((149:ℚ)/200 * 255) = 189 := by norm_num [pyInt]
  show "#" ++ hex2 (pyInt ((191:ℚ)/200 * 255)).toNat ++ hex2 (pyInt ((149:ℚ)/200 * 255)).toNat ++
    hex2 (pyInt ((149:ℚ)/200 * 255)).toNat = "#f3bdbd"
  rw [c1, c2]
  decide

lemma specHexColor_case : specHexColor 0 (17/20) (7/10) = "#f4bebe" := by
  unfold specHexColor
  rw [hlsToRgb_case]
  have c1 : (min 255 (max 0 (round ((191:ℚ)/200 * 255)))).toNat = 244 := by
    norm_num [round_eq]
    decide
  have c2 : (min 255 (max 0 (round ((149:ℚ)/200 * 255)))).toNat = 190 := by
    norm_num [round_eq]
    decide
  show "#" ++ hex2 (min 255 (max 0 (round ((191:ℚ)/200 * 255)))).toNat ++
    hex2 (min 255 (max 0 (round ((149:ℚ)/200 * 255)))).toNat ++
    hex2 (min 255 (max 0 (round ((149:ℚ)/200 * 255)))).toNat = "#f4bebe"
  rw [c1, c2]
  decide

/-- C6 counterexample: at hue 0 (alternate mode, index 0) with the default
lightness 0.85 and saturation 0.7, the engine serializes #f3bdbd - each
channel truncated by int() - while the spec's round-and-clamp rule demands
#f4bebe (243.525 rounds to 244, 189.975 to 190). -/
theorem C6_counterexample :
    assignColors (fun _ => 0) ⟨true, false, true, 17/20, 7/10⟩
      [⟨"A", none, none, none, some "L", none⟩] = [("A", "#f3bdbd")] ∧
    specHexColor 0 (17/20) (7/10) = "#f4bebe" ∧
    hlsHexColor 0 (17/20) (7/10) ≠ specHexColor 0 (17/20) (7/10) := by
  refine ⟨?_, specHexColor_case, ?_⟩
  · have hl : hueList (fun _ => 0) ⟨true, false, true, 17/20, 7/10⟩
        [⟨"A", none, none, none, some "L", none⟩] = [("A", 0)] := by decide
    unfold assignColors
    rw [hl]
    simp only [List.map_cons, List.map_nil]
    rw [show ((0 : Nat) : ℚ) / 360 = 0 by norm_num]
    rw [hlsHexColor_case]
  · rw [hlsHexColor_case, specHexColor_case]
    decide

/-- C6 (amended): each serialized channel is int(component * 255), a
truncation (floor on these nonnegative components), not a rounding; with the
clamped lightness and saturation the components lie in [0, 1], so every
channel byte already lies in [0, 255] and no explicit clamping is needed. -/
theorem C6_truncation :
    ∀ (h l s : ℚ), 0 ≤ l → l ≤ 1 → 0 ≤ s → s ≤ 1 →
      hlsHexColor h l s =
        "#" ++ hex2 (Int.floor ((hlsToRgb h l s).1 * 255)).toNat ++
          hex2 (Int.floor ((hlsToRgb h l s).2.1 * 255)).toNat ++
          hex2 (Int.floor ((hlsToRgb h l s).2.2 * 255)).toNat ∧
      (0 ≤ Int.floor ((hlsToRgb h l s).1 * 255) ∧ Int.floor ((hlsToRgb h l s).1 * 255) ≤ 255) ∧
      (0 ≤ Int.floor ((hlsToRgb h l s).2.1 * 255) ∧
        Int.floor ((hlsToRgb h l s).2.1 * 255) ≤ 255) ∧
      (0 ≤ Int.floor ((hlsToRgb h l s).2.2 * 255) ∧
        Int.floor ((hlsToRgb h l s).2.2 * 255) ≤ 255) := by
  intro h l s hl0 hl1 hs0 hs1
  obtain ⟨⟨r0, r1⟩, ⟨g0, g1⟩, ⟨b0, b1⟩⟩ := hlsToRgb_mem (h := h) hl0 hl1 hs0 hs1
  obtain ⟨rEq, rlo, rhi⟩ := pyInt_channel r0 r1
  obtain ⟨gEq, glo, ghi⟩ := pyInt_channel g0 g1
  obtain ⟨bEq, blo, bhi⟩ := pyInt_channel b0 b1
  refine ⟨?_, ⟨rlo, rhi⟩, ⟨glo, ghi⟩, ⟨blo, bhi⟩⟩
  unfold hlsHexColor
  dsimp only
  rw [rEq, gEq, bEq]

/-- C6 witness: the truncation rule instantiated at hue 0, lightness 0.85,
saturation 0.7. -/
theorem C6_witness :
    hlsHexColor 0 (17/20) (7/10) =
      "#" ++ hex2 (Int.floor ((hlsToRgb 0 (17/20) (7/10)).1 * 255)).toNat ++
        hex2 (Int.floor ((hlsToRgb 0 (17/20) (7/10)).2.1 * 255)).toNat ++
        hex2 (Int.floor ((hlsToRgb 0 (17/20) (7/10)).2.2 * 255)).toNat ∧
    0 ≤ Int.floor ((hlsToRgb 0 (17/20) (7/10)).1 * 255) ∧
      Int.floor ((hlsToRgb 0 (17/20) (7/10)).1 * 255) ≤ 255 :=
  have h := C6_truncation 0 (17/20) (7/10) (by norm_num) (by norm_num) (by norm_num)
    (by norm_num)
  ⟨h.1, h.2.1⟩

/-- C7 counterexample: a record with a completed date distinct from its due
date is changed in the caller's frame by the call - the due-date field is
overwritten in place. -/
theorem C7_counterexample :
    processedTasks [⟨"T", some ⟨2, 1, 1⟩, some ⟨2, 1, 5⟩, some ⟨2, 1, 9⟩, none, none⟩] ≠
      [⟨"T", some ⟨2, 1, 1⟩, some ⟨2, 1, 5⟩, some ⟨2, 1, 9⟩, none, none⟩] := by
  decide

/-- C7 (amended): the engine mutates the caller's rows, but only the start
and due date fields and only per the resolution rules: names, labels,
buckets, completed dates and the row count are preserved, a record with no
completed date keeps its due date, a record with a start date keeps it, and a
record is untouched exactly when no rule fires. -/
theorem C7_mutation :
    (∀ ts : List Task, (processedTasks ts).length = ts.length) ∧
    (∀ t : Task,
      (resolveTask t).name = t.name ∧
      (resolveTask t).completedDate = t.completedDate ∧
      (resolveTask t).label = t.label ∧
      (resolveTask t).bucket = t.bucket ∧
      (t.completedDate = none → (resolveTask t).dueDate = t.dueDate) ∧
      (t.startDate.isSome = true → (resolveTask t).startDate = t.startDate) ∧
      (t.completedDate = none → t.startDate.isSome = true → resolveTask t = t)) := by
  constructor
  · intro ts
    unfold processedTasks
    exact List.length_map ts resolveTask
  · intro t
    obtain ⟨nm, st, du, cd, lb, bk⟩ := t
    refine ⟨rfl, rfl, rfl, rfl, ?_, ?_, ?_⟩
    · intro h
      dsimp only at h
      subst h
      cases st <;> rfl
    · intro h
      dsimp only at h
      cases st
      · simp at h
      · rfl
    · intro h1 h2
      dsimp only at h1 h2
      subst h1
      cases st
      · simp at h2
      · rfl

/-- C7 witness: the mutation rules instantiated on a record with no completed
date and a present start date: it survives the call unchanged. -/
theorem C7_witness :
    resolveTask ⟨"T", some ⟨2, 1, 1⟩, some ⟨2, 1, 5⟩, none, none, none⟩ =
      ⟨"T", some ⟨2, 1, 1⟩, some ⟨2, 1, 5⟩, none, none, none⟩ ∧
    (processedTasks [⟨"T", some ⟨2, 1, 1⟩, some ⟨2, 1, 5⟩, none, none, none⟩]).length = 1 :=
  ⟨(C7_mutation.2 ⟨"T", some ⟨2, 1, 1⟩, some ⟨2, 1, 5⟩, none, none, none⟩).2.2.2.2.2.2 rfl rfl,
   C7_mutation.1 [⟨"T", some ⟨2, 1, 1⟩, some ⟨2, 1, 5⟩, none, none, none⟩]⟩

/-- C8: color assignment is total over the indexed names - every task name
recorded anywhere in the day index has an entry in the color mapping built
for the same run, for every digest and grouping configuration. -/
theorem C8_color_total :
    ∀ (hash : String → Nat) (cfg : ColorCfg) (ts : List Task) (year : Nat),
      (∀ t ∈ ts, datesValid t) → ∀ (d : Date) (n : String),
      memIdx (buildDayIndex ts year) d n →
      ((assignColors hash cfg ts).find? (fun p => p.1 == n)).isSome = true := by
  intro hash cfg ts year hv d n hmem
  have hnames : n ∈ ts.map (fun t => t.name) := memIdx_name_mem hv hmem
  have hkeys : n ∈ (assignColors hash cfg ts).map Prod.fst := by
    rw [keys_assignColors]
    exact (mem_uniqueSorted n _).mpr hnames
  obtain ⟨p, hp, hpn⟩ := List.mem_map.mp hkeys
  rw [List.find?_isSome]
  exact ⟨p, hp, by simp [hpn]⟩

/-- C8 witness: the indexed task of the three-day example has a color entry. -/
theorem C8_witness :
    ((assignColors (fun _ => 0) ⟨false, false, false, 0, 0⟩
      [⟨"T", some ⟨2, 1, 10⟩, some ⟨2, 1, 12⟩, none, none, none⟩]).find?
        (fun p => p.1 == "T")).isSome = true :=
  C8_color_total (fun _ => 0) ⟨false, false, false, 0, 0⟩
    [⟨"T", some ⟨2, 1, 10⟩, some ⟨2, 1, 12⟩, none, none, none⟩] 2 (by decide)
    ⟨2, 1, 11⟩ "T" (by decide)

/-- C9 counterexample: two records named T, the first with a NaN label and
the second labeled X; the renderer takes the first row's label (all-NaN is
false), NaN is truthy and interpolates as nan, so the displayed text is nanT,
not the XT the first-non-empty-label rule demands. -/
theorem C9_counterexample :
    displayName
      [⟨"T", some ⟨2, 1, 1⟩, some ⟨2, 1, 2⟩, none, none, none⟩,
       ⟨"T", some ⟨2, 1, 1⟩, some ⟨2, 1, 2⟩, none, some "X", none⟩] true "T" = "nanT" ∧
    specDisplayName
      [⟨"T", some ⟨2, 1, 1⟩, some ⟨2, 1, 2⟩, none, none, none⟩,
       ⟨"T", some ⟨2, 1, 1⟩, some ⟨2, 1, 2⟩, none, some "X", none⟩] true "T" = "XT" ∧
    displayName
      [⟨"T", some ⟨2, 1, 1⟩, some ⟨2, 1, 2⟩, none, none, none⟩,
       ⟨"T", some ⟨2, 1, 1⟩, some ⟨2, 1, 2⟩, none, some "X", none⟩] true "T" ≠
      specDisplayName
        [⟨"T", some ⟨2, 1, 1⟩, some ⟨2, 1, 2⟩, none, none, none⟩,
         ⟨"T", some ⟨2, 1, 1⟩, some ⟨2, 1, 2⟩, none, some "X", none⟩] true "T" :=
  ⟨by decide, by decide, by decide⟩

/-- C9 (amended): with prefixing on, the renderer uses the first matching
row's label unless every matching label is absent: a present non-empty first
label is prepended verbatim, an empty first label yields the bare name, an
absent first label with some later label present prepends the literal string
nan, and when no matching row has a label the bare name is shown. -/
theorem C9_label_rule :
    ∀ (kept : List Task) (n : String),
      displayName kept false n = n ∧
      (displayName kept true n =
        match (kept.filter (fun t => t.name = n)).map (fun t => t.label) with
        | [] => n
        | v :: vs =>
          if (v :: vs).all (fun x => x.isNone) then n
          else
            match v with
            | none => "nan" ++ n
            | some l => if l = "" then n else l ++ n) := by
  intro kept n
  constructor
  · rfl
  · unfold displayName
    rw [if_pos rfl]
    cases hls : (kept.filter (fun t => t.name = n)).map (fun t => t.label) with
    | nil => rfl
    | cons v vs =>
      by_cases hall : ((v :: vs).all (fun x => x.isNone)) = true
      · simp only [hall, if_true, labelTruthy, labelStr]
        rfl
      · simp only [hall, Bool.false_eq_true, if_false]
        cases v with
        | none => rfl
        | some l =>
          by_cases hl : l = ""
          · subst hl
            rfl
          · have ht : labelTruthy (some l) = true := by simp [labelTruthy, hl]
            rw [if_pos ht]
            show labelStr (some l) ++ n = if l = "" then n else l ++ n
            rw [if_neg hl]
            rfl

/-- C9 witness: a first non-empty label is prepended verbatim. -/
theorem C9_witness :
    displayName [⟨"T", some ⟨2, 1, 1⟩, some ⟨2, 1, 2⟩, none, some "X", none⟩] true "T" =
      "XT" := by
  have h := (C9_label_rule [⟨"T", some ⟨2, 1, 1⟩, some ⟨2, 1, 2⟩, none, some "X", none⟩] "T").2
  rw [h]
  decide

/-- C10: a task name present in the day index but absent from the color
mapping still renders - its span is emitted into the day cell with the fixed
fallback background color #f0f0f0. -/
theorem C10_missing_color_fallback :
    ∀ (idx : DayIndex) (colors : List (String × String)) (kept : List Task) (pfLabel : Bool)
      (d : Date) (n : String),
      n ∈ lookupIdx idx d →
      colors.find? (fun p => p.1 == n) = none →
      renderTaskSpan colors kept pfLabel n ∈ dayCellTaskSpans idx colors kept pfLabel d ∧
      renderTaskSpan colors kept pfLabel n =
        taskSpan (escapeTaskText (displayName kept pfLabel n)) "#f0f0f0" := by
  intro idx colors kept pfLabel d n hmem hfind
  constructor
  · exact List.mem_map_of_mem _ hmem
  · unfold renderTaskSpan bgColorFor
    rw [hfind]

/-- C10 witness: a day with task T and a color table lacking T renders T's
span with the fallback color. -/
theorem C10_witness :
    renderTaskSpan [("Other", "#aabbcc")] [] false "T" ∈
      dayCellTaskSpans [(⟨2, 1, 11⟩, ["T"])] [("Other", "#aabbcc")] [] false ⟨2, 1, 11⟩ ∧
    renderTaskSpan [("Other", "#aabbcc")] [] false "T" =
      taskSpan (escapeTaskText (displayName [] false "T")) "#f0f0f0" :=
  C10_missing_color_fallback [(⟨2, 1, 11⟩, ["T"])] [("Other", "#aabbcc")] [] false
    ⟨2, 1, 11⟩ "T" (by decide) (by decide)

end PlannerCal
